import Mathlib

/-
Verification of the semantic retrieval and relevance-filtering engine of the
BotApp repository (src/embeddings_manager.py), via a shallow embedding in Lean.

Modelling conventions:
- Python strings are Lean `String`s; lowercasing and substring containment are
  re-implemented structurally (`pyLower`, `pyIn`) so that every definition
  evaluates inside the kernel.
- Similarity scores (numpy floats compared against the fixed thresholds 0.65,
  0.45, 0.4) are modelled as rationals: all the verified properties are order
  comparisons, not floating-point rounding facts.
- Chunks are records `{text, metadata}`; a Python dict is an association list
  and dict assignment is `setMD` (replace the key in place, else append).
- The Python corpus `self.chunks` is a `List Chunk`; because the chunk dicts
  flowing through the pipeline are aliases of the corpus entries, the pipeline
  is modelled by threading the store and passing corpus ids (`Nat`) around;
  in-place metadata mutation becomes `annotate` on the store.
- The embedding model plus FAISS index pair is abstracted as an oracle
  `String → Nat → List (ℚ × Int)` mapping an encoded text and a count k to the
  (score, id) rows returned by `index.search`; faiss returns int64 ids, which
  may be negative (its padding value is -1), hence `Int`.
- A Python `IndexError` (negative id below -len on `self.chunks[idx]`) makes
  the modelled operation return `none`.
-/

namespace BotApp

/-- Metadata values: the code stores strings and floats in chunk metadata. -/
inductive MVal where
  | str : String → MVal
  | num : ℚ → MVal
deriving DecidableEq

/-- A passage record: immutable text plus a mutable metadata dict. -/
structure Chunk where
  text : String
  metadata : List (String × MVal)
deriving DecidableEq

instance : Inhabited Chunk := ⟨⟨"", []⟩⟩

/-- `self.relevance_threshold = 0.65`. -/
def relevanceThreshold : ℚ := mkRat 65 100

/-- `self.dynamic_threshold = 0.45`. -/
def dynamicThreshold : ℚ := mkRat 45 100

/-- The literal `0.4` used inside `_broad_search`. -/
def broadThreshold : ℚ := mkRat 4 10

/-- `self.university_keywords`, in the dict's insertion order. -/
def universityKeywords : List (String × List String) :=
  [("academic", ["course", "program", "degree", "major", "minor", "curriculum",
                 "syllabus", "academic", "study"]),
   ("administrative", ["admission", "enrollment", "registration", "application",
                       "deadline", "procedure", "process"]),
   ("financial", ["fee", "tuition", "payment", "cost", "scholarship",
                  "financial aid", "budget", "expense"]),
   ("campus", ["facility", "building", "campus", "library", "lab", "classroom",
               "dormitory", "housing"]),
   ("student_life", ["student", "life", "activity", "club", "organization",
                     "event", "campus life"]),
   ("services", ["service", "support", "help", "assistance", "guidance",
                 "counseling", "advising"])]

/-- The fixed generic list `university_terms` in `_is_university_related`. -/
def universityTerms : List String :=
  ["university", "college", "student", "professor", "lecturer", "campus", "academic"]

/-- Structural test that `small` is a prefix of `big` (character lists). -/
def isPrefOf : List Char → List Char → Bool
  | [], _ => true
  | _ :: _, [] => false
  | a :: as, b :: bs => a == b && isPrefOf as bs

/-- Structural test that `needle` occurs as a contiguous sublist of `hay`. -/
def isSubOf (needle : List Char) : List Char → Bool
  | [] => needle.isEmpty
  | b :: t => isPrefOf needle (b :: t) || isSubOf needle t

/-- Python `needle in hay` on strings: substring containment. -/
def pyIn (needle hay : String) : Bool := isSubOf needle.data hay.data

/-- Python `s.lower()` (ASCII lowering suffices for the configured keywords). -/
def pyLower (s : String) : String := ⟨s.data.map Char.toLower⟩

/-- Python `list(set(...))`: drop duplicates.  CPython's set iteration order is
unspecified; we keep first occurrences as the canonical representative, and all
verified claims about this value are order-insensitive. -/
def dedupKeep : List String → List String → List String
  | [], _ => []
  | a :: rest, seen =>
    if seen.contains a then dedupKeep rest seen else a :: dedupKeep rest (a :: seen)

/-- `_extract_university_keywords`: for each category, if any of its keywords is
a substring of the lowercased query, extend the result with the whole category
list (the inner loop breaks after the first hit), then de-duplicate. -/
def extractKeywords (query : String) : List String :=
  let ql := pyLower query
  let found := universityKeywords.foldl
    (fun acc p => if p.2.any (fun kw => pyIn kw ql) then acc ++ p.2 else acc) []
  dedupKeep found []

/-- `_is_university_related`: any category keyword, or any generic term, occurs
as a substring of the lowercased query. -/
def isUniversityRelated (query : String) : Bool :=
  let ql := pyLower query
  universityKeywords.any (fun p => p.2.any (fun kw => pyIn kw ql))
    || universityTerms.any (fun t => pyIn t ql)

/-- The `enhanced_terms` accumulator of `_enhance_query`: for each extracted
keyword, the first category whose list contains it contributes its first three
keywords (the loop breaks after that category). -/
def enhancedTerms (query : String) : List String :=
  (extractKeywords query).foldl
    (fun acc kw =>
      match universityKeywords.find? (fun p => p.2.contains kw) with
      | some p => acc ++ p.2.take 3
      | none => acc) []

/-- Python `" ".join l`. -/
def joinSp : List String → String
  | [] => ""
  | [t] => t
  | t :: u :: rest => t ++ " " ++ joinSp (u :: rest)

/-- `_enhance_query`: unrelated queries pass through; related ones get the
first five `enhanced_terms` appended, space-separated (or pass through
unchanged when no term was produced). -/
def enhanceQuery (query : String) : String :=
  if !isUniversityRelated query then query
  else
    let terms := enhancedTerms query
    if terms.isEmpty then query
    else query ++ " " ++ joinSp (terms.take 5)

/-- Python dict assignment `md[key] = v`: overwrite the (unique) binding of the
key in place if present, otherwise append the binding. -/
def setMD : List (String × MVal) → String → MVal → List (String × MVal)
  | [], key, v => [(key, v)]
  | p :: rest, key, v =>
    if p.1 = key then (key, v) :: rest else p :: setMD rest key v

/-- Dict lookup `md[key]` (as an option). -/
def mdLookup (md : List (String × MVal)) (key : String) : Option MVal :=
  (md.find? (fun p => p.1 = key)).map Prod.snd

/-- Replace the element at position `i` (identity when out of range). -/
def modifyAt : List Chunk → Nat → (Chunk → Chunk) → List Chunk
  | [], _, _ => []
  | c :: rest, 0, f => f c :: rest
  | c :: rest, n + 1, f => c :: modifyAt rest n f

/-- The in-place mutation
`chunk["metadata"]["relevance_score"] = float(score)` followed by
`chunk["metadata"]["filtering_reason"] = reason`, applied through the alias to
the corpus entry at id `i`. -/
def annotate (store : List Chunk) (i : Nat) (score : ℚ) (reason : String) : List Chunk :=
  modifyAt store i (fun c =>
    { c with metadata := setMD (setMD c.metadata "relevance_score" (.num score))
                               "filtering_reason" (.str reason) })

/-- Text of the corpus entry at id `i`. -/
def textAt (store : List Chunk) (i : Nat) : String := (store.getD i default).text

/-- The main loop of `_smart_chunk_filtering` over `zip(chunks, scores)`
(candidates are (corpus id, score) pairs); accepted ids are collected in order
and accepted chunks are annotated in the store. -/
def filterLoop (query : String) : List (Nat × ℚ) → List Chunk → List Nat → List Chunk × List Nat
  | [], store, acc => (store, acc)
  | (i, score) :: rest, store, acc =>
    if isUniversityRelated query then
      if dynamicThreshold ≤ score then
        if (extractKeywords query).any (fun kw => pyIn kw (pyLower (textAt store i)))
            || relevanceThreshold ≤ score then
          filterLoop query rest (annotate store i score "university_related") (acc ++ [i])
        else filterLoop query rest store acc
      else filterLoop query rest store acc
    else
      if relevanceThreshold ≤ score then
        filterLoop query rest (annotate store i score "high_relevance") (acc ++ [i])
      else filterLoop query rest store acc

/-- Stable insertion for descending sort by score: the new element goes after
every element with a greater-or-equal score. -/
def insDesc (p : Nat × ℚ) : List (Nat × ℚ) → List (Nat × ℚ)
  | [] => [p]
  | q :: rest => if q.2 < p.2 then p :: q :: rest else q :: insDesc p rest

/-- Python `sorted(zip(chunks, scores), key=lambda x: x[1], reverse=True)`:
stable sort by descending score. -/
def sortDesc (cands : List (Nat × ℚ)) : List (Nat × ℚ) :=
  cands.foldl (fun acc p => insDesc p acc) []

/-- The fallback loop of `_smart_chunk_filtering`: annotate and take each of
the given (already sorted, already truncated) candidates unconditionally. -/
def fallbackLoop : List (Nat × ℚ) → List Chunk → List Nat → List Chunk × List Nat
  | [], store, acc => (store, acc)
  | (i, score) :: rest, store, acc =>
    fallbackLoop rest (annotate store i score "fallback_best_match") (acc ++ [i])

/-- `_smart_chunk_filtering`: run the main loop; if nothing was accepted but
candidates existed, take the top 3 by descending score unconditionally. -/
def smartChunkFiltering (query : String) (store : List Chunk)
    (cands : List (Nat × ℚ)) : List Chunk × List Nat :=
  if cands = [] then (store, [])
  else
    let r := filterLoop query cands store []
    if r.2 = [] then fallbackLoop ((sortDesc cands).take 3) r.1 []
    else r

/-- Python list indexing `chunks[idx]` with an `Int` index: non-negative in
range directly, negative down to `-n` from the end, otherwise `IndexError`
(`none`). -/
def pyGet (n : Nat) (idx : Int) : Option Nat :=
  if 0 ≤ idx then some idx.toNat
  else if -(n : Int) ≤ idx then some ((n : Int) + idx).toNat
  else none

/-- The candidate-mapping loop of `search_similar_chunks`: rows whose id fails
`idx < len(self.chunks)` are skipped; the remaining ids go through Python list
indexing (so a sufficiently negative id aborts with `IndexError`). -/
def mapCandidates (n : Nat) : List (ℚ × Int) → Option (List (Nat × ℚ))
  | [] => some []
  | (score, idx) :: rest =>
    if idx < (n : Int) then
      match pyGet n idx with
      | none => none
      | some i => (mapCandidates n rest).map (fun cs => (i, score) :: cs)
    else mapCandidates n rest

/-- The inner loop of `_broad_search` over one keyword's search rows: fetch the
chunk (Python indexing), then accept and annotate when the score reaches 0.4. -/
def broadLoop (store : List Chunk) (acc : List Nat) :
    List (ℚ × Int) → Option (List Chunk × List Nat)
  | [] => some (store, acc)
  | (score, idx) :: rest =>
    if idx < (store.length : Int) then
      match pyGet store.length idx with
      | none => none
      | some i =>
        if broadThreshold ≤ score then
          broadLoop (annotate store i score "keyword_search") (acc ++ [i]) rest
        else broadLoop store acc rest
    else broadLoop store acc rest

/-- `_broad_search`: embed each of the first three extracted keywords alone,
search the index for `k` rows each, and keep rows scoring at least 0.4. -/
def broadSearch (oracle : String → Nat → List (ℚ × Int)) (store : List Chunk)
    (query : String) (k : Nat) : Option (List Chunk × List Nat) :=
  ((extractKeywords query).take 3).foldl
    (fun st kw =>
      match st with
      | none => none
      | some (store1, ids) => broadLoop store1 ids (oracle kw k))
    (some (store, []))

/-- The dedup-and-limit loop of `search_similar_chunks`: keep first occurrence
of each text, and break right after the accumulated list reaches length `k`. -/
def dedupLimit (store : List Chunk) (k : Nat) :
    List Nat → List String → List Chunk → List Chunk
  | [], _, acc => acc
  | i :: rest, seen, acc =>
    let t := textAt store i
    if seen.contains t then dedupLimit store k rest seen acc
    else
      let acc2 := acc ++ [store.getD i default]
      if k ≤ acc2.length then acc2
      else dedupLimit store k rest (seen ++ [t]) acc2

/-- Step 7 of `search_similar_chunks` on the post-filter state and ids: when
fewer than 3 chunks survived and the query is institution-related, run
`_broad_search` and extend the surviving ids with its results (the Python
`if broader_chunks:` guard makes the no-result case leave the list as is). -/
def afterBroadStep (oracle : String → Nat → List (ℚ × Int)) (query : String)
    (k : Nat) (r : List Chunk × List Nat) : Option (List Chunk × List Nat) :=
  if r.2.length < 3 && isUniversityRelated query then
    match broadSearch oracle r.1 query k with
    | none => none
    | some (store2, bids) =>
      some (store2, if bids.isEmpty then r.2 else r.2 ++ bids)
  else some r

/-- `search_similar_chunks`: enhance, search `min(k*3, len(chunks))` rows, map
ids to chunks, filter, broaden when fewer than 3 survive and the query is
institution-related, then deduplicate by text and truncate to `k`.  Returns the
final corpus store (the chunk dicts are aliased) together with the result list;
`none` models an uncaught `IndexError`. -/
def searchSimilarChunks (oracle : String → Nat → List (ℚ × Int))
    (store : List Chunk) (query : String) (k : Nat) :
    Option (List Chunk × List Chunk) :=
  match mapCandidates store.length (oracle (enhanceQuery query) (min (k * 3) store.length)) with
  | none => none
  | some cands =>
    match afterBroadStep oracle query k (smartChunkFiltering query store cands) with
    | none => none
    | some (store2, ids) => some (store2, dedupLimit store2 k ids [] [])

/-- The same pipeline without step 7 (no broad-search fallback at all); used to
state that the fallback contributes nothing in the cases where it is not
invoked. -/
def searchNoBroad (oracle : String → Nat → List (ℚ × Int))
    (store : List Chunk) (query : String) (k : Nat) :
    Option (List Chunk × List Chunk) :=
  match mapCandidates store.length (oracle (enhanceQuery query) (min (k * 3) store.length)) with
  | none => none
  | some cands =>
    let r := smartChunkFiltering query store cands
    some (r.1, dedupLimit r.1 k r.2 [] [])

/-- The acceptance predicate of the relevance filter as the specification
words it, per candidate (corpus id, score): for an institution-related query,
`score ≥ dynamic_threshold` and (the chunk text contains a keyword of
`extract_keywords(query)` or `score ≥ relevance_threshold`); otherwise
`score ≥ relevance_threshold`.  The main filtering loop is proved to accept
exactly the candidates satisfying it. -/
def acceptSpec (query : String) (store : List Chunk) (p : Nat × ℚ) : Bool :=
  if isUniversityRelated query then
    decide (dynamicThreshold ≤ p.2) &&
      ((extractKeywords query).any (fun kw => pyIn kw (pyLower (textAt store p.1)))
        || decide (relevanceThreshold ≤ p.2))
  else decide (relevanceThreshold ≤ p.2)

/-- The `filtering_reason` value the main loop assigns, by query kind. -/
def reasonOf (query : String) : String :=
  if isUniversityRelated query then "university_related" else "high_relevance"

/-- The chunk at id `i` carries `filtering_reason = r`. -/
def taggedAs (store : List Chunk) (i : Nat) (r : String) : Prop :=
  mdLookup ((store.getD i default).metadata) "filtering_reason" = some (.str r)

/-- Manager state: `self.chunks` and `self.index`, each possibly `None`.  The
index is abstracted as the list of vectors it stores (one per added row), with
the vector type `V` left abstract. -/
structure MState (V : Type) where
  chunks : Option (List Chunk)
  idx : Option (List V)

/-- The persisted store of pickled chunk lists, keyed by filename root (the
companion FAISS file of each pair is determined by the same key and is not
modelled separately). -/
def fsFind (fs : List (String × List Chunk)) (key : String) : Option (List Chunk) :=
  (fs.find? (fun p => p.1 = key)).map Prod.snd

/-- Write (or overwrite) one pickled chunk list. -/
def fsSet (fs : List (String × List Chunk)) (key : String) (v : List Chunk) :
    List (String × List Chunk) :=
  if fs.any (fun p => p.1 = key) then
    fs.map (fun p => if p.1 = key then (key, v) else p)
  else fs ++ [(key, v)]

/-- `create_embeddings`: store the chunks, embed each text, build a fresh
index holding exactly those vectors in order. -/
def createEmbeddings (embed : String → V) (chunks : List Chunk) : MState V :=
  ⟨some chunks, some (chunks.map (fun c => embed c.text))⟩

/-- `save_embeddings`: requires both parts loaded, then persists `self.chunks`
verbatim (the pickle payload is the very list of aliased chunk dicts). -/
def saveEmbeddings (fs : List (String × List Chunk)) (key : String) (st : MState V) :
    Option (List (String × List Chunk)) :=
  match st.chunks, st.idx with
  | some cs, some _ => some (fsSet fs key cs)
  | _, _ => none

/-- The source-loading loop of `combine_embeddings`: `none` as soon as one
source's chunk file is missing, otherwise the sources' chunk lists concatenated
in source order. -/
def loadAll (fs : List (String × List Chunk)) : List String → Option (List Chunk)
  | [] => some []
  | s :: rest =>
    match fsFind fs s with
    | none => none
    | some cs => (loadAll fs rest).map (fun acc => cs ++ acc)

/-- `combine_embeddings`: load every source (aborting with `False` when one is
missing, before any state or file is touched), then rebuild the embeddings and
index from the concatenation and persist it under `university_combined`. -/
def combineEmbeddings (embed : String → V) (fs : List (String × List Chunk))
    (st : MState V) (sources : List String) :
    Bool × List (String × List Chunk) × MState V :=
  match loadAll fs sources with
  | none => (false, fs, st)
  | some allChunks =>
    (true, fsSet fs "university_combined" allChunks, createEmbeddings embed allChunks)

/-- One-chunk corpus fixture used in concrete evaluations. -/
def pdfChunk : Chunk := ⟨"hello", [("type", MVal.str "pdf")]⟩

/-- `pdfChunk` after the relevance filter mutated its metadata in place. -/
def pdfChunkTagged : Chunk :=
  ⟨"hello", [("type", MVal.str "pdf"), ("relevance_score", MVal.num (mkRat 7 10)),
             ("filtering_reason", MVal.str "high_relevance")]⟩

/-- Tiny corpus fixtures for the combine scenarios. -/
def cA : Chunk := ⟨"alpha", []⟩

def cB : Chunk := ⟨"beta", []⟩

def cC : Chunk := ⟨"gamma", []⟩

theorem length_modifyAt (l : List Chunk) (j : Nat) (f : Chunk → Chunk) :
    (modifyAt l j f).length = l.length := by
  induction l generalizing j with
  | nil => rfl
  | cons c rest ih =>
    cases j with
    | zero => rfl
    | succ n => simp only [modifyAt, List.length_cons, ih]

theorem modifyAt_of_ge (l : List Chunk) (j : Nat) (f : Chunk → Chunk)
    (h : l.length ≤ j) : modifyAt l j f = l := by
  induction l generalizing j with
  | nil => rfl
  | cons c rest ih =>
    cases j with
    | zero => simp at h
    | succ n =>
      simp only [List.length_cons, Nat.succ_le_succ_iff] at h
      simp only [modifyAt, ih n h]

theorem getD_modifyAt_ne (l : List Chunk) (f : Chunk → Chunk) (d : Chunk) :
    ∀ i j, i ≠ j → (modifyAt l j f).getD i d = l.getD i d := by
  induction l with
  | nil => intro i j _; rfl
  | cons c rest ih =>
    intro i j hij
    cases j with
    | zero =>
      cases i with
      | zero => exact absurd rfl hij
      | succ m => simp only [modifyAt, List.getD_cons_succ]
    | succ n =>
      cases i with
      | zero => simp only [modifyAt, List.getD_cons_zero]
      | succ m =>
        simp only [modifyAt, List.getD_cons_succ]
        exact ih m n (by omega)

theorem getD_modifyAt_self (l : List Chunk) (f : Chunk → Chunk) (d : Chunk) :
    ∀ j, j < l.length → (modifyAt l j f).getD j d = f (l.getD j d) := by
  induction l with
  | nil => intro j h; simp at h
  | cons c rest ih =>
    intro j h
    cases j with
    | zero => rfl
    | succ n =>
      simp only [modifyAt, List.getD_cons_succ]
      exact ih n (by simpa using h)

theorem length_annotate (st : List Chunk) (j : Nat) (s : ℚ) (r : String) :
    (annotate st j s r).length = st.length := length_modifyAt ..

theorem mdLookup_setMD_self (md : List (String × MVal)) (key : String) (v : MVal) :
    mdLookup (setMD md key v) key = some v := by
  induction md with
  | nil => simp [setMD, mdLookup, List.find?]
  | cons p rest ih =>
    by_cases hp : p.1 = key
    · simp [setMD, hp, mdLookup, List.find?]
    · simp only [setMD, if_neg hp, mdLookup, List.find?] at ih ⊢
      rw [decide_eq_false hp]
      exact ih

theorem annotate_tag (st : List Chunk) (j : Nat) (s : ℚ) (r : String)
    (h : j < st.length) : taggedAs (annotate st j s r) j r := by
  unfold taggedAs annotate
  rw [getD_modifyAt_self st _ default j h]
  exact mdLookup_setMD_self ..

theorem getD_annotate_ne (st : List Chunk) (j : Nat) (s : ℚ) (r : String)
    (i : Nat) (hij : i ≠ j) :
    (annotate st j s r).getD i default = st.getD i default :=
  getD_modifyAt_ne st _ default i j hij

theorem textAt_annotate (st : List Chunk) (j : Nat) (s : ℚ) (r : String)
    (i : Nat) : textAt (annotate st j s r) i = textAt st i := by
  by_cases hij : i = j
  · subst hij
    by_cases h : i < st.length
    · unfold textAt annotate
      rw [getD_modifyAt_self st _ default i h]
    · unfold annotate
      rw [modifyAt_of_ge st i _ (le_of_not_lt h)]
  · unfold textAt
    rw [getD_annotate_ne st j s r i hij]

theorem acceptSpec_annotate (q : String) (st : List Chunk) (j : Nat) (s : ℚ)
    (r : String) (p : Nat × ℚ) :
    acceptSpec q (annotate st j s r) p = acceptSpec q st p := by
  unfold acceptSpec
  rw [textAt_annotate]

theorem filterLoop_cons (q : String) (i : Nat) (score : ℚ)
    (rest : List (Nat × ℚ)) (store : List Chunk) (acc : List Nat) :
    filterLoop q ((i, score) :: rest) store acc =
      if acceptSpec q store (i, score) then
        filterLoop q rest (annotate store i score (reasonOf q)) (acc ++ [i])
      else filterLoop q rest store acc := by
  by_cases h1 : isUniversityRelated q
  · by_cases h2 : dynamicThreshold ≤ score
    · by_cases h3 : ((extractKeywords q).any (fun kw => pyIn kw (pyLower (textAt store i)))
          || decide (relevanceThreshold ≤ score)) = true
      · simp [filterLoop, acceptSpec, reasonOf, h1, h2, h3]
      · simp only [Bool.or_eq_true, decide_eq_true_eq, not_or] at h3
        simp [filterLoop, acceptSpec, reasonOf, h1, h2, h3.1, h3.2]
    · simp [filterLoop, acceptSpec, reasonOf, h1, h2]
  · simp only [Bool.not_eq_true] at h1
    by_cases h2 : relevanceThreshold ≤ score
    · simp [filterLoop, acceptSpec, reasonOf, h1, h2]
    · simp [filterLoop, acceptSpec, reasonOf, h1, h2]

theorem filterLoop_snd (q : String) (store0 : List Chunk) :
    ∀ (cands : List (Nat × ℚ)) (store : List Chunk) (acc : List Nat),
      (∀ i, textAt store i = textAt store0 i) →
      (filterLoop q cands store acc).2
        = acc ++ (cands.filter (acceptSpec q store0)).map Prod.fst := by
  intro cands
  induction cands with
  | nil => intro store acc _; simp [filterLoop]
  | cons p rest ih =>
    intro store acc h
    obtain ⟨i, score⟩ := p
    have hacc : acceptSpec q store (i, score) = acceptSpec q store0 (i, score) := by
      unfold acceptSpec textAt
      rw [show (store.getD i default).text = (store0.getD i default).text from h i]
    rw [filterLoop_cons, hacc]
    by_cases ha : acceptSpec q store0 (i, score) = true
    · rw [if_pos ha,
        ih _ _ (fun j => by rw [textAt_annotate]; exact h j)]
      simp [List.filter_cons, ha]
    · rw [if_neg (by simpa using ha), ih _ _ h]
      simp [List.filter_cons, ha]

theorem filterLoop_of_none (q : String) :
    ∀ (cands : List (Nat × ℚ)) (store : List Chunk) (acc : List Nat),
      (∀ p ∈ cands, acceptSpec q store p = false) →
      filterLoop q cands store acc = (store, acc) := by
  intro cands
  induction cands with
  | nil => intro store acc _; rfl
  | cons p rest ih =>
    intro store acc h
    obtain ⟨i, score⟩ := p
    rw [filterLoop_cons, if_neg (by simp [h (i, score) (List.mem_cons_self _ _)])]
    exact ih store acc (fun p hp => h p (List.mem_cons_of_mem _ hp))

theorem filterLoop_tags (q : String) :
    ∀ (cands : List (Nat × ℚ)) (store : List Chunk) (acc : List Nat),
      (∀ p ∈ cands, p.1 < store.length) →
      (∀ i ∈ acc, taggedAs store i (reasonOf q)) →
      ∀ i ∈ (filterLoop q cands store acc).2,
        taggedAs (filterLoop q cands store acc).1 i (reasonOf q) := by
  intro cands
  induction cands with
  | nil =>
    intro store acc _ hacc
    simpa [filterLoop] using hacc
  | cons p rest ih =>
    intro store acc hvalid hacc
    obtain ⟨i, score⟩ := p
    have hi : i < store.length := hvalid (i, score) (List.mem_cons_self _ _)
    rw [filterLoop_cons]
    by_cases ha : acceptSpec q store (i, score) = true
    · rw [if_pos ha]
      apply ih
      · intro p hp
        rw [length_annotate]
        exact hvalid p (List.mem_cons_of_mem _ hp)
      · intro j hj
        rcases List.mem_append.mp hj with hj | hj
        · by_cases hji : j = i
          · subst hji
            exact annotate_tag store j score (reasonOf q) hi
          · unfold taggedAs
            rw [getD_annotate_ne store i score (reasonOf q) j hji]
            exact hacc j hj
        · rw [List.mem_singleton.mp hj]
          exact annotate_tag store i score (reasonOf q) hi
    · rw [if_neg (by simpa using ha)]
      exact ih store acc (fun p hp => hvalid p (List.mem_cons_of_mem _ hp)) hacc

theorem fallbackLoop_snd :
    ∀ (l : List (Nat × ℚ)) (store : List Chunk) (acc : List Nat),
      (fallbackLoop l store acc).2 = acc ++ l.map Prod.fst := by
  intro l
  induction l with
  | nil => intro store acc; simp [fallbackLoop]
  | cons p rest ih =>
    intro store acc
    obtain ⟨i, s⟩ := p
    simp [fallbackLoop, ih]

theorem fallbackLoop_tags :
    ∀ (l : List (Nat × ℚ)) (store : List Chunk) (acc : List Nat),
      (∀ p ∈ l, p.1 < store.length) →
      (∀ i ∈ acc, taggedAs store i "fallback_best_match") →
      ∀ i ∈ (fallbackLoop l store acc).2,
        taggedAs (fallbackLoop l store acc).1 i "fallback_best_match" := by
  intro l
  induction l with
  | nil =>
    intro store acc _ hacc
    simpa [fallbackLoop] using hacc
  | cons p rest ih =>
    intro store acc hvalid hacc
    obtain ⟨i, s⟩ := p
    have hi : i < store.length := hvalid (i, s) (List.mem_cons_self _ _)
    show ∀ j ∈ (fallbackLoop rest (annotate store i s "fallback_best_match") (acc ++ [i])).2, _
    apply ih
    · intro p hp
      rw [length_annotate]
      exact hvalid p (List.mem_cons_of_mem _ hp)
    · intro j hj
      rcases List.mem_append.mp hj with hj | hj
      · by_cases hji : j = i
        · subst hji
          exact annotate_tag store j s "fallback_best_match" hi
        · unfold taggedAs
          rw [getD_annotate_ne store i s "fallback_best_match" j hji]
          exact hacc j hj
      · rw [List.mem_singleton.mp hj]
        exact annotate_tag store i s "fallback_best_match" hi

theorem mem_insDesc (x : Nat × ℚ) :
    ∀ (l : List (Nat × ℚ)) (p : Nat × ℚ), p ∈ insDesc x l ↔ p = x ∨ p ∈ l := by
  intro l
  induction l with
  | nil => intro p; simp [insDesc]
  | cons q rest ih =>
    intro p
    by_cases h : q.2 < x.2
    · simp only [insDesc, if_pos h, List.mem_cons]
    · simp only [insDesc, if_neg h, List.mem_cons, ih]
      tauto

theorem length_insDesc (x : Nat × ℚ) :
    ∀ l : List (Nat × ℚ), (insDesc x l).length = l.length + 1 := by
  intro l
  induction l with
  | nil => rfl
  | cons q rest ih =>
    by_cases h : q.2 < x.2
    · simp [insDesc, h]
    · simp [insDesc, h, ih]

theorem foldl_insDesc_length :
    ∀ (l : List (Nat × ℚ)) (acc : List (Nat × ℚ)),
      (l.foldl (fun a p => insDesc p a) acc).length = acc.length + l.length := by
  intro l
  induction l with
  | nil => intro acc; simp
  | cons p rest ih =>
    intro acc
    rw [List.foldl_cons, ih, length_insDesc]
    simp [Nat.add_comm, Nat.add_assoc, Nat.add_left_comm]

theorem length_sortDesc (l : List (Nat × ℚ)) : (sortDesc l).length = l.length := by
  simpa [sortDesc] using foldl_insDesc_length l []

theorem foldl_insDesc_mem :
    ∀ (l acc : List (Nat × ℚ)) (p : Nat × ℚ),
      p ∈ l.foldl (fun a q => insDesc q a) acc ↔ p ∈ acc ∨ p ∈ l := by
  intro l
  induction l with
  | nil => intro acc p; simp
  | cons q rest ih =>
    intro acc p
    rw [List.foldl_cons, ih, mem_insDesc]
    simp
    tauto

theorem mem_sortDesc (l : List (Nat × ℚ)) (p : Nat × ℚ) :
    p ∈ sortDesc l ↔ p ∈ l := by
  simpa [sortDesc] using foldl_insDesc_mem l [] p

theorem perm_insDesc (x : Nat × ℚ) :
    ∀ l : List (Nat × ℚ), List.Perm (insDesc x l) (x :: l) := by
  intro l
  induction l with
  | nil => exact List.Perm.refl _
  | cons q rest ih =>
    by_cases h : q.2 < x.2
    · simp only [insDesc, if_pos h]
      exact List.Perm.refl _
    · simp only [insDesc, if_neg h]
      exact (ih.cons q).trans (List.Perm.swap x q rest)

theorem foldl_insDesc_perm :
    ∀ (l acc : List (Nat × ℚ)),
      List.Perm (l.foldl (fun a q => insDesc q a) acc) (acc ++ l) := by
  intro l
  induction l with
  | nil => intro acc; simp
  | cons p rest ih =>
    intro acc
    rw [List.foldl_cons]
    refine (ih (insDesc p acc)).trans ?_
    refine (((perm_insDesc p acc).append_right rest).trans ?_)
    exact List.perm_middle.symm

theorem perm_sortDesc (l : List (Nat × ℚ)) : List.Perm (sortDesc l) l := by
  simpa [sortDesc] using foldl_insDesc_perm l []

theorem pairwise_insDesc (x : Nat × ℚ) :
    ∀ l : List (Nat × ℚ),
      List.Pairwise (fun a b => b.2 ≤ a.2) l →
      List.Pairwise (fun a b => b.2 ≤ a.2) (insDesc x l) := by
  intro l
  induction l with
  | nil => intro _; simp [insDesc]
  | cons q rest ih =>
    intro hp
    rcases List.pairwise_cons.mp hp with ⟨hq, hrest⟩
    by_cases h : q.2 < x.2
    · simp only [insDesc, if_pos h]
      refine List.pairwise_cons.mpr ⟨?_, hp⟩
      intro y hy
      rcases List.mem_cons.mp hy with hy | hy
      · rw [hy]; exact le_of_lt h
      · exact le_trans (hq y hy) (le_of_lt h)
    · simp only [insDesc, if_neg h]
      refine List.pairwise_cons.mpr ⟨?_, ih hrest⟩
      intro y hy
      rcases (mem_insDesc x rest y).mp hy with hy | hy
      · rw [hy]; exact le_of_not_lt h
      · exact hq y hy

theorem pairwise_sortDesc (l : List (Nat × ℚ)) :
    List.Pairwise (fun a b => b.2 ≤ a.2) (sortDesc l) := by
  have aux : ∀ (m acc : List (Nat × ℚ)),
      List.Pairwise (fun a b => b.2 ≤ a.2) acc →
      List.Pairwise (fun a b => b.2 ≤ a.2) (m.foldl (fun a q => insDesc q a) acc) := by
    intro m
    induction m with
    | nil => intro acc h; simpa using h
    | cons p rest ih =>
      intro acc h
      rw [List.foldl_cons]
      exact ih _ (pairwise_insDesc p acc h)
  simpa [sortDesc] using aux l [] List.Pairwise.nil

theorem dedupLimit_nil (store : List Chunk) (k : Nat) (seen : List String)
    (acc : List Chunk) : dedupLimit store k [] seen acc = acc := rfl

theorem dedupLimit_length (store : List Chunk) (k : Nat) :
    ∀ (ids : List Nat) (seen : List String) (acc : List Chunk),
      acc.length < k → (dedupLimit store k ids seen acc).length ≤ k := by
  intro ids
  induction ids with
  | nil => intro seen acc h; simpa [dedupLimit] using le_of_lt h
  | cons i rest ih =>
    intro seen acc h
    simp only [dedupLimit]
    by_cases hseen : seen.contains (textAt store i) = true
    · simp only [if_pos hseen]
      exact ih seen acc h
    · simp only [if_neg hseen]
      by_cases hk : k ≤ (acc ++ [store.getD i default]).length
      · simp only [if_pos hk]
        simp only [List.length_append, List.length_singleton]
        omega
      · simp only [if_neg hk]
        apply ih
        simp only [List.length_append, List.length_singleton] at hk ⊢
        omega

theorem dedupLimit_nodup (store : List Chunk) (k : Nat) :
    ∀ (ids : List Nat) (seen : List String) (acc : List Chunk),
      (acc.map Chunk.text).Nodup →
      (∀ c ∈ acc, seen.contains c.text = true) →
      ((dedupLimit store k ids seen acc).map Chunk.text).Nodup := by
  intro ids
  induction ids with
  | nil => intro seen acc h1 _; simpa [dedupLimit] using h1
  | cons i rest ih =>
    intro seen acc h1 h2
    simp only [dedupLimit]
    by_cases hseen : seen.contains (textAt store i) = true
    · simp only [if_pos hseen]
      exact ih seen acc h1 h2
    · simp only [if_neg hseen]
      have hnotmem : textAt store i ∉ acc.map Chunk.text := by
        intro hmem
        rcases List.mem_map.mp hmem with ⟨c, hc, hct⟩
        exact hseen (hct ▸ h2 c hc)
      have hnew : ((acc ++ [store.getD i default]).map Chunk.text).Nodup := by
        rw [List.map_append]
        refine List.Nodup.append h1 (by simp) ?_
        intro t ht ht2
        simp only [List.map_cons, List.map_nil, List.mem_singleton] at ht2
        refine hnotmem ?_
        rw [textAt, ← ht2]
        exact ht
      by_cases hk : k ≤ (acc ++ [store.getD i default]).length
      · simp only [if_pos hk]
        exact hnew
      · simp only [if_neg hk]
        apply ih _ _ hnew
        intro c hc
        rcases List.mem_append.mp hc with hc | hc
        · exact List.elem_iff.mpr (List.mem_append_left _ (List.elem_iff.mp (h2 c hc)))
        · simp only [List.mem_singleton] at hc
          subst hc
          exact List.elem_iff.mpr (by simp [textAt])

theorem contains_cons_str (a b : String) (l : List String) :
    (a :: l).contains b = (b == a || l.contains b) := rfl

theorem mem_dedupKeep :
    ∀ (l seen : List String) (x : String),
      x ∈ dedupKeep l seen ↔ x ∈ l ∧ seen.contains x = false := by
  intro l
  induction l with
  | nil => intro seen x; simp [dedupKeep]
  | cons a rest ih =>
    intro seen x
    by_cases ha : seen.contains a = true
    · simp only [dedupKeep, if_pos ha, ih, List.mem_cons]
      constructor
      · rintro ⟨h1, h2⟩
        exact ⟨Or.inr h1, h2⟩
      · rintro ⟨h1 | h1, h2⟩
        · rw [h1, ha] at h2
          cases h2
        · exact ⟨h1, h2⟩
    · simp only [dedupKeep, if_neg ha, List.mem_cons, ih, contains_cons_str]
      constructor
      · rintro (rfl | ⟨h1, h2⟩)
        · refine ⟨Or.inl rfl, ?_⟩
          simpa using ha
        · rcases Bool.or_eq_false_iff.mp h2 with ⟨h3, h4⟩
          exact ⟨Or.inr h1, h4⟩
      · rintro ⟨rfl | h1, h2⟩
        · exact Or.inl rfl
        · by_cases hxa : x = a
          · exact Or.inl hxa
          · refine Or.inr ⟨h1, ?_⟩
            rw [Bool.or_eq_false_iff]
            exact ⟨by simpa using hxa, h2⟩

theorem nodup_dedupKeep : ∀ (l seen : List String), (dedupKeep l seen).Nodup := by
  intro l
  induction l with
  | nil => intro seen; simp [dedupKeep]
  | cons a rest ih =>
    intro seen
    by_cases ha : seen.contains a = true
    · simp only [dedupKeep, if_pos ha]
      exact ih seen
    · simp only [dedupKeep, if_neg ha]
      refine List.nodup_cons.mpr ⟨?_, ih _⟩
      intro hmem
      rcases (mem_dedupKeep rest (a :: seen) a).mp hmem with ⟨_, hc⟩
      rw [contains_cons_str] at hc
      simp at hc

theorem mem_extract_foldl (ql : String) :
    ∀ (cats : List (String × List String)) (acc : List String) (x : String),
      x ∈ cats.foldl
          (fun acc p => if p.2.any (fun kw => pyIn kw ql) then acc ++ p.2 else acc) acc
        ↔ x ∈ acc ∨ ∃ p ∈ cats, p.2.any (fun kw => pyIn kw ql) = true ∧ x ∈ p.2 := by
  intro cats
  induction cats with
  | nil => intro acc x; simp
  | cons c rest ih =>
    intro acc x
    rw [List.foldl_cons]
    by_cases hc : c.2.any (fun kw => pyIn kw ql) = true
    · rw [if_pos hc, ih]
      simp only [List.mem_append, List.mem_cons]
      constructor
      · rintro ((h | h) | ⟨p, hp, h1, h2⟩)
        · exact Or.inl h
        · exact Or.inr ⟨c, Or.inl rfl, hc, h⟩
        · exact Or.inr ⟨p, Or.inr hp, h1, h2⟩
      · rintro (h | ⟨p, rfl | hp, h1, h2⟩)
        · exact Or.inl (Or.inl h)
        · exact Or.inl (Or.inr h2)
        · exact Or.inr ⟨p, hp, h1, h2⟩
    · rw [if_neg hc, ih]
      simp only [List.mem_cons]
      constructor
      · rintro (h | ⟨p, hp, h1, h2⟩)
        · exact Or.inl h
        · exact Or.inr ⟨p, Or.inr hp, h1, h2⟩
      · rintro (h | ⟨p, rfl | hp, h1, h2⟩)
        · exact Or.inl h
        · exact absurd h1 hc
        · exact Or.inr ⟨p, hp, h1, h2⟩

theorem mem_extractKeywords (q : String) (kw : String) :
    kw ∈ extractKeywords q ↔
      ∃ p ∈ universityKeywords, (∃ w ∈ p.2, pyIn w (pyLower q) = true) ∧ kw ∈ p.2 := by
  unfold extractKeywords
  rw [mem_dedupKeep, mem_extract_foldl]
  simp [List.any_eq_true]

theorem nodup_extractKeywords (q : String) : (extractKeywords q).Nodup :=
  nodup_dedupKeep _ []

theorem extractKeywords_eq_nil (q : String)
    (h : ∀ p ∈ universityKeywords, ∀ w ∈ p.2, pyIn w (pyLower q) = false) :
    extractKeywords q = [] := by
  have aux : ∀ (cats : List (String × List String)) (acc : List String),
      (∀ p ∈ cats, ∀ w ∈ p.2, pyIn w (pyLower q) = false) →
      cats.foldl
        (fun acc p => if p.2.any (fun kw => pyIn kw (pyLower q)) then acc ++ p.2 else acc) acc
        = acc := by
    intro cats
    induction cats with
    | nil => intro acc _; rfl
    | cons c rest ih =>
      intro acc hc
      rw [List.foldl_cons, if_neg ?_]
      · exact ih acc (fun p hp => hc p (List.mem_cons_of_mem _ hp))
      · intro hany
        rcases List.any_eq_true.mp hany with ⟨w, hw, hpy⟩
        rw [hc c (List.mem_cons_self _ _) w hw] at hpy
        cases hpy
  simp only [extractKeywords]
  rw [aux universityKeywords [] h]
  rfl

theorem find?_category_of_mem :
    ∀ c ∈ universityKeywords, ∀ w ∈ c.2,
      universityKeywords.find? (fun p => p.2.contains w) = some c := by
  decide

theorem mem_enhancedTerms_matching (q : String) (t : String)
    (h : t ∈ enhancedTerms q) :
    ∃ p ∈ universityKeywords,
      (∃ w ∈ p.2, pyIn w (pyLower q) = true) ∧ t ∈ p.2.take 3 := by
  have aux : ∀ (kws acc : List String),
      (∀ kw ∈ kws, kw ∈ extractKeywords q) →
      t ∈ kws.foldl
          (fun acc kw =>
            match universityKeywords.find? (fun p => p.2.contains kw) with
            | some p => acc ++ p.2.take 3
            | none => acc) acc →
      t ∈ acc ∨ ∃ p ∈ universityKeywords,
          (∃ w ∈ p.2, pyIn w (pyLower q) = true) ∧ t ∈ p.2.take 3 := by
    intro kws
    induction kws with
    | nil => intro acc _ h2; exact Or.inl h2
    | cons kw rest ih =>
      intro acc hsub h2
      rw [List.foldl_cons] at h2
      obtain ⟨c, hcmem, hcmatch, hkwc⟩ :
          ∃ c ∈ universityKeywords,
            (∃ w ∈ c.2, pyIn w (pyLower q) = true) ∧ kw ∈ c.2 :=
        (mem_extractKeywords q kw).mp (hsub kw (List.mem_cons_self _ _))
      rw [find?_category_of_mem c hcmem kw hkwc] at h2
      rcases ih _ (fun w hw => hsub w (List.mem_cons_of_mem _ hw)) h2 with hacc | hex
      · rcases List.mem_append.mp hacc with h1 | h1
        · exact Or.inl h1
        · exact Or.inr ⟨c, hcmem, hcmatch, h1⟩
      · exact Or.inr hex
  rcases aux _ [] (fun kw hk => hk) h with h1 | h1
  · simp at h1
  · exact h1

theorem broadFold_of_nil (oracle : String → Nat → List (ℚ × Int)) (k : Nat)
    (hO : ∀ s, oracle s k = []) :
    ∀ (kws : List String) (store : List Chunk) (ids : List Nat),
      kws.foldl
        (fun st kw =>
          match st with
          | none => none
          | some (store1, ids1) => broadLoop store1 ids1 (oracle kw k))
        (some (store, ids))
      = some (store, ids) := by
  intro kws
  induction kws with
  | nil => intro store ids; rfl
  | cons kw rest ih =>
    intro store ids
    simp only [List.foldl_cons, hO kw, broadLoop]
    exact ih store ids

theorem broadSearch_of_nil (oracle : String → Nat → List (ℚ × Int)) (q : String)
    (k : Nat) (hO : ∀ s, oracle s k = []) (store : List Chunk) :
    broadSearch oracle store q k = some (store, []) :=
  broadFold_of_nil oracle k hO _ store []

theorem broadSearch_of_extract_nil (oracle : String → Nat → List (ℚ × Int))
    (q : String) (k : Nat) (h : extractKeywords q = []) (store : List Chunk) :
    broadSearch oracle store q k = some (store, []) := by
  unfold broadSearch
  rw [h]
  rfl

theorem smartChunkFiltering_nil (q : String) (store : List Chunk) :
    smartChunkFiltering q store [] = (store, []) := by
  simp [smartChunkFiltering]

theorem search_zero (oracle : String → Nat → List (ℚ × Int)) (store : List Chunk)
    (q : String) (hz : ∀ s, oracle s 0 = []) :
    searchSimilarChunks oracle store q 0 = some (store, []) := by
  have habs : afterBroadStep oracle q 0 (store, ([] : List Nat)) = some (store, []) := by
    unfold afterBroadStep
    by_cases hrel : isUniversityRelated q = true
    · rw [if_pos (by simp [hrel]), broadSearch_of_nil oracle q 0 hz store]
      rfl
    · rw [if_neg (by simp [hrel])]
  unfold searchSimilarChunks
  rw [show min (0 * 3) store.length = 0 by simp, hz (enhanceQuery q)]
  show (match afterBroadStep oracle q 0 (smartChunkFiltering q store []) with
      | none => none
      | some (store2, ids) => some (store2, dedupLimit store2 0 ids [] [])) = _
  rw [smartChunkFiltering_nil, habs]
  rfl

theorem loadAll_of_missing (fs : List (String × List Chunk)) :
    ∀ sources : List String, (∃ s ∈ sources, fsFind fs s = none) →
      loadAll fs sources = none := by
  intro sources
  induction sources with
  | nil => rintro ⟨s, hs, _⟩; cases hs
  | cons a rest ih =>
    rintro ⟨s, hs, hnone⟩
    rcases List.mem_cons.mp hs with rfl | hs
    · simp only [loadAll, hnone]
    · cases hfa : fsFind fs a with
      | none => simp only [loadAll, hfa]
      | some cs =>
        simp only [loadAll, hfa, ih ⟨s, hs, hnone⟩]
        rfl

theorem loadAll_of_found (fs : List (String × List Chunk)) (g : String → List Chunk) :
    ∀ sources : List String, (∀ s ∈ sources, fsFind fs s = some (g s)) →
      loadAll fs sources = some ((sources.map g).flatten) := by
  intro sources
  induction sources with
  | nil => intro _; rfl
  | cons a rest ih =>
    intro h
    simp only [loadAll, h a (List.mem_cons_self _ _),
      ih (fun s hs => h s (List.mem_cons_of_mem _ hs)), List.map_cons,
      List.flatten_cons]
    rfl

/-- Claim C1: for every query string and every `k ≥ 0`, provided the vector
index honours its contract of returning at most the requested number of rows,
a normally-returning `search_similar_chunks` call returns a list of at most
`k` chunks in which no two chunks have identical `text`. -/
theorem search_at_most_k_and_text_distinct
    (oracle : String → Nat → List (ℚ × Int)) (store : List Chunk) (q : String)
    (k : Nat) (st out : List Chunk)
    (hOracle : ∀ s n, (oracle s n).length ≤ n)
    (hEq : searchSimilarChunks oracle store q k = some (st, out)) :
    out.length ≤ k ∧ (out.map Chunk.text).Nodup := by
  rcases Nat.eq_zero_or_pos k with hk | hk
  · subst hk
    rw [search_zero oracle store q
        (fun s => List.length_eq_zero.mp (Nat.le_zero.mp (hOracle s 0)))] at hEq
    cases hEq
    exact ⟨Nat.le_refl 0, by simp⟩
  · simp only [searchSimilarChunks] at hEq
    cases hmc : mapCandidates store.length
        (oracle (enhanceQuery q) (min (k * 3) store.length)) with
    | none =>
      rw [hmc] at hEq
      cases hEq
    | some cands =>
      rw [hmc] at hEq
      replace hEq :
          (match afterBroadStep oracle q k (smartChunkFiltering q store cands) with
            | none => none
            | some (store2, ids) => some (store2, dedupLimit store2 k ids [] []))
          = some (st, out) := hEq
      cases hab : afterBroadStep oracle q k (smartChunkFiltering q store cands) with
      | none =>
        rw [hab] at hEq
        cases hEq
      | some p =>
        obtain ⟨store2, ids⟩ := p
        rw [hab] at hEq
        injection hEq with h
        injection h with h1 h2
        subst h1
        subst h2
        exact ⟨dedupLimit_length store2 k ids [] [] (by simpa using hk),
               dedupLimit_nodup store2 k ids [] [] (by simp) (by simp)⟩

/-- Claim C1 witness: a concrete corpus, oracle and `k = 2` where the search
returns one chunk, of length at most 2 with pairwise distinct texts. -/
theorem search_at_most_k_and_text_distinct_witness :
    ([pdfChunkTagged] : List Chunk).length ≤ 2
      ∧ (([pdfChunkTagged] : List Chunk).map Chunk.text).Nodup :=
  search_at_most_k_and_text_distinct
    (fun _ n => [(mkRat 7 10, 0)].take n) [pdfChunk] "weather" 2
    [pdfChunkTagged] [pdfChunkTagged]
    (fun _ n => by simp)
    (by decide)

/-- Claim C2 fails on the code: with a single below-threshold candidate for a
non-institution-related query, the fallback path of `_smart_chunk_filtering`
returns exactly 1 chunk — not 0 and not 3 as the claim states (`[:3]` on a
shorter list returns the whole list). -/
theorem fallback_one_candidate_counterexample :
    isUniversityRelated "weather" = false
    ∧ mkRat 1 2 < relevanceThreshold
    ∧ (smartChunkFiltering "weather" [⟨"zzz", []⟩] [(0, mkRat 1 2)]).2.length = 1
    ∧ ¬((smartChunkFiltering "weather" [⟨"zzz", []⟩] [(0, mkRat 1 2)]).2.length = 0
        ∨ (smartChunkFiltering "weather" [⟨"zzz", []⟩] [(0, mkRat 1 2)]).2.length = 3) := by
  decide

/-- Claim C2 amended: for ANY query — institution-related or not — whenever
no candidate passes the acceptance policy (every candidate fails `acceptSpec`,
e.g. all scores below 0.45 for an institution-related query, or all below 0.65
for a non-institution-related one), the filter returns the first `min 3 n`
candidates of the descending-score stable sort of the `n` candidates, each
tagged `fallback_best_match`; in particular the result of that path has
exactly `min 3 n` chunks (so 1 or 2 chunks occur when only 1 or 2 candidates
exist, and 3 whenever at least 3 exist). -/
theorem fallback_returns_min_three (q : String) (store : List Chunk)
    (cands : List (Nat × ℚ))
    (hfail : ∀ p ∈ cands, acceptSpec q store p = false)
    (hvalid : ∀ p ∈ cands, p.1 < store.length) :
    (smartChunkFiltering q store cands).2 = ((sortDesc cands).take 3).map Prod.fst
    ∧ (smartChunkFiltering q store cands).2.length = min 3 cands.length
    ∧ List.Perm (sortDesc cands) cands
    ∧ List.Pairwise (fun a b => b.2 ≤ a.2) (sortDesc cands)
    ∧ ∀ i ∈ (smartChunkFiltering q store cands).2,
        taggedAs (smartChunkFiltering q store cands).1 i "fallback_best_match" := by
  rcases eq_or_ne cands [] with rfl | hne
  · refine ⟨by simp [smartChunkFiltering, sortDesc], by simp [smartChunkFiltering], ?_, ?_, ?_⟩
    · exact List.Perm.refl _
    · exact List.Pairwise.nil
    · intro i hi
      simp [smartChunkFiltering] at hi
  · have hfl : filterLoop q cands store [] = (store, []) :=
      filterLoop_of_none q cands store [] hfail
    have hsmart : smartChunkFiltering q store cands
        = fallbackLoop ((sortDesc cands).take 3) store [] := by
      simp [smartChunkFiltering, hne, hfl]
    have hvalid2 : ∀ p ∈ (sortDesc cands).take 3, p.1 < store.length :=
      fun p hp => hvalid p ((mem_sortDesc cands p).mp (List.mem_of_mem_take hp))
    have hsnd : (fallbackLoop ((sortDesc cands).take 3) store []).2
        = ((sortDesc cands).take 3).map Prod.fst := by
      simpa using fallbackLoop_snd ((sortDesc cands).take 3) store []
    refine ⟨?_, ?_, perm_sortDesc cands, pairwise_sortDesc cands, ?_⟩
    · rw [hsmart, hsnd]
    · rw [hsmart, hsnd]
      simp [List.length_take, length_sortDesc]
    · rw [hsmart]
      exact fallbackLoop_tags ((sortDesc cands).take 3) store [] hvalid2 (by simp)

/-- Claim C2 amended witness: two single-candidate scenarios — a
non-institution-related query with score 0.5 < 0.65 and an institution-related
query with score 0.3 < 0.45 — each return exactly `min 3 1 = 1` chunk from the
fallback path. -/
theorem fallback_returns_min_three_witness :
    ((smartChunkFiltering "weather" [⟨"zzz", []⟩] [(0, mkRat 1 2)]).2.length
      = min 3 ([(0, mkRat 1 2)] : List (Nat × ℚ)).length)
    ∧ ((smartChunkFiltering "course" [⟨"zzz", []⟩] [(0, mkRat 3 10)]).2.length
      = min 3 ([(0, mkRat 3 10)] : List (Nat × ℚ)).length) :=
  ⟨(fallback_returns_min_three "weather" [⟨"zzz", []⟩] [(0, mkRat 1 2)]
      (by decide) (by decide)).2.1,
   (fallback_returns_min_three "course" [⟨"zzz", []⟩] [(0, mkRat 3 10)]
      (by decide) (by decide)).2.1⟩

/-- Claim C3: the main filtering loop accepts a candidate (chunk, score) if
and only if `acceptSpec` holds — for an institution-related query,
`score ≥ 0.45` and (the lowercased chunk text contains some keyword of
`extract_keywords(query)` or `score ≥ 0.65`); otherwise `score ≥ 0.65` — and
every accepted chunk is tagged `university_related` resp. `high_relevance`. -/
theorem filter_acceptance_policy (q : String) (store : List Chunk)
    (cands : List (Nat × ℚ)) (hvalid : ∀ p ∈ cands, p.1 < store.length) :
    (filterLoop q cands store []).2 = (cands.filter (acceptSpec q store)).map Prod.fst
    ∧ ∀ i ∈ (filterLoop q cands store []).2,
        taggedAs (filterLoop q cands store []).1 i (reasonOf q) :=
  ⟨by simpa using filterLoop_snd q store cands store [] (fun _ => rfl),
   filterLoop_tags q cands store [] hvalid (by simp)⟩

/-- Claim C3 witness: a concrete institution-related query and candidate that
passes via the keyword disjunct at score 0.5. -/
theorem filter_acceptance_policy_witness :
    ((filterLoop "course" [(0, mkRat 1 2)] [⟨"course catalog", []⟩] []).2
        = (([(0, mkRat 1 2)] : List (Nat × ℚ)).filter
            (acceptSpec "course" [⟨"course catalog", []⟩])).map Prod.fst)
    ∧ ∀ i ∈ (filterLoop "course" [(0, mkRat 1 2)] [⟨"course catalog", []⟩] []).2,
        taggedAs (filterLoop "course" [(0, mkRat 1 2)] [⟨"course catalog", []⟩] []).1 i
          (reasonOf "course") :=
  filter_acceptance_policy "course" [⟨"course catalog", []⟩] [(0, mkRat 1 2)] (by decide)

/-- Claim C4 fails on the code: the guard is only `idx < len(self.chunks)`, so
a negative id is NOT skipped.  On a one-chunk corpus, id `-1` (faiss's padding
value) passes the guard and Python negative indexing maps it to the last chunk
(id 0), producing a candidate; id `-2` raises an `IndexError` instead of being
silently skipped. -/
theorem negative_id_not_skipped_counterexample :
    mapCandidates 1 [(mkRat 1 2, -1)] = some [(0, mkRat 1 2)]
    ∧ mapCandidates 1 [(mkRat 1 2, -2)] = none := by
  decide

/-- Claim C4 amended: in the primary candidate mapping AND in the broad-search
loop (whose guard is identical), an id `idx ≥ len(corpus)` is silently skipped
(no chunk, no error); but a negative id is not skipped: for `-len ≤ idx < 0`
the chunk at position `len + idx` is fetched (Python negative indexing) — in
the primary mapping it becomes a candidate, in the broad search it is then
subject to the 0.4 score gate — and for `idx < -len` the search aborts with an
`IndexError`. -/
theorem candidate_mapping_bounds (n : Nat) (s : ℚ) (idx : Int)
    (rest : List (ℚ × Int)) (store : List Chunk) (acc : List Nat) :
    ((n : Int) ≤ idx → mapCandidates n ((s, idx) :: rest) = mapCandidates n rest)
    ∧ (idx < -(n : Int) → mapCandidates n ((s, idx) :: rest) = none)
    ∧ (-(n : Int) ≤ idx → idx < 0 →
        mapCandidates n ((s, idx) :: rest)
          = (mapCandidates n rest).map (fun cs => (((n : Int) + idx).toNat, s) :: cs))
    ∧ ((store.length : Int) ≤ idx →
        broadLoop store acc ((s, idx) :: rest) = broadLoop store acc rest)
    ∧ (idx < -(store.length : Int) → broadLoop store acc ((s, idx) :: rest) = none)
    ∧ (-(store.length : Int) ≤ idx → idx < 0 →
        broadLoop store acc ((s, idx) :: rest)
          = if broadThreshold ≤ s then
              broadLoop
                (annotate store (((store.length : Int) + idx).toNat) s "keyword_search")
                (acc ++ [((store.length : Int) + idx).toNat]) rest
            else broadLoop store acc rest) := by
  refine ⟨?_, ?_, ?_, ?_, ?_, ?_⟩
  · intro h
    simp only [mapCandidates, if_neg (not_lt.mpr h)]
  · intro h
    have h1 : idx < (n : Int) := by omega
    have h2 : ¬(0 ≤ idx) := by omega
    have h3 : ¬(-(n : Int) ≤ idx) := by omega
    simp only [mapCandidates, if_pos h1, pyGet, if_neg h2, if_neg h3]
  · intro h1 h2
    have h3 : idx < (n : Int) := by omega
    simp only [mapCandidates, if_pos h3, pyGet, if_neg (not_le.mpr h2), if_pos h1]
  · intro h
    simp only [broadLoop, if_neg (not_lt.mpr h)]
  · intro h
    have h1 : idx < (store.length : Int) := by omega
    have h2 : ¬(0 ≤ idx) := by omega
    have h3 : ¬(-(store.length : Int) ≤ idx) := by omega
    simp only [broadLoop, if_pos h1, pyGet, if_neg h2, if_neg h3]
  · intro h1 h2
    have h3 : idx < (store.length : Int) := by omega
    simp only [broadLoop, if_pos h3, pyGet, if_neg (not_le.mpr h2), if_pos h1]

/-- Claim C4 amended witness: the three id regimes, in both the primary
mapping and the broad-search loop, at corpus length 1. -/
theorem candidate_mapping_bounds_witness :
    (mapCandidates 1 [(mkRat 1 2, 5)] = mapCandidates 1 [])
    ∧ (mapCandidates 1 [(mkRat 1 2, -2)] = none)
    ∧ (mapCandidates 1 [(mkRat 1 2, -1)]
        = (mapCandidates 1 []).map
            (fun cs => ((((1 : Nat) : Int) + -1).toNat, mkRat 1 2) :: cs))
    ∧ (broadLoop [pdfChunk] [] [(mkRat 1 2, 5)] = broadLoop [pdfChunk] [] [])
    ∧ (broadLoop [pdfChunk] [] [(mkRat 1 2, -2)] = none)
    ∧ (broadLoop [pdfChunk] [] [(mkRat 1 2, -1)]
        = if broadThreshold ≤ mkRat 1 2 then
            broadLoop
              (annotate [pdfChunk] ((([pdfChunk].length : Int) + -1).toNat)
                (mkRat 1 2) "keyword_search")
              ([] ++ [(([pdfChunk].length : Int) + -1).toNat]) []
          else broadLoop [pdfChunk] [] []) :=
  ⟨(candidate_mapping_bounds 1 (mkRat 1 2) 5 [] [pdfChunk] []).1 (by decide),
   (candidate_mapping_bounds 1 (mkRat 1 2) (-2) [] [pdfChunk] []).2.1 (by decide),
   (candidate_mapping_bounds 1 (mkRat 1 2) (-1) [] [pdfChunk] []).2.2.1
     (by decide) (by decide),
   (candidate_mapping_bounds 1 (mkRat 1 2) 5 [] [pdfChunk] []).2.2.2.1 (by decide),
   (candidate_mapping_bounds 1 (mkRat 1 2) (-2) [] [pdfChunk] []).2.2.2.2.1 (by decide),
   (candidate_mapping_bounds 1 (mkRat 1 2) (-1) [] [pdfChunk] []).2.2.2.2.2
     (by decide) (by decide)⟩

/-- Claim C5: the broad-search fallback is consulted if and only if fewer than
3 chunks survive filtering and the query is institution-related.  When the
condition fails, `search_similar_chunks` coincides with the pipeline that has
no broad-search step at all; when it holds, the result is the deduplication of
the filtered ids extended with the broad-search ids (and a broad-search
`IndexError` aborts the call). -/
theorem broad_search_iff_scarce_and_related
    (oracle : String → Nat → List (ℚ × Int)) (store : List Chunk) (q : String)
    (k : Nat) (cands : List (Nat × ℚ))
    (hmc : mapCandidates store.length
        (oracle (enhanceQuery q) (min (k * 3) store.length)) = some cands) :
    (¬((smartChunkFiltering q store cands).2.length < 3
          ∧ isUniversityRelated q = true) →
        searchSimilarChunks oracle store q k = searchNoBroad oracle store q k)
    ∧ ((smartChunkFiltering q store cands).2.length < 3 →
        isUniversityRelated q = true →
        (broadSearch oracle (smartChunkFiltering q store cands).1 q k = none →
            searchSimilarChunks oracle store q k = none)
        ∧ ∀ (st2 : List Chunk) (bids : List Nat),
            broadSearch oracle (smartChunkFiltering q store cands).1 q k
              = some (st2, bids) →
            searchSimilarChunks oracle store q k
              = some (st2,
                  dedupLimit st2 k ((smartChunkFiltering q store cands).2 ++ bids) [] [])) := by
  rcases hsp : smartChunkFiltering q store cands with ⟨st1, ids1⟩
  constructor
  · intro hn
    simp only at hn
    have hcond : (decide (ids1.length < 3) && isUniversityRelated q) = false := by
      by_cases h3 : ids1.length < 3
      · have hr : isUniversityRelated q = false :=
          Bool.eq_false_iff.mpr (fun hr => hn ⟨h3, hr⟩)
        simp [hr]
      · simp [h3]
    have hab : afterBroadStep oracle q k (st1, ids1) = some (st1, ids1) := by
      simp [afterBroadStep, hcond]
    simp only [searchSimilarChunks, searchNoBroad, hmc, hsp, hab]
  · intro h3 hrel
    simp only at h3
    constructor
    · intro hbn
      simp only at hbn
      have hab : afterBroadStep oracle q k (st1, ids1) = none := by
        simp [afterBroadStep, h3, hrel, hbn]
      simp only [searchSimilarChunks, hmc, hsp, hab]
    · intro st2 bids hbs
      simp only at hbs
      have hab : afterBroadStep oracle q k (st1, ids1) = some (st2, ids1 ++ bids) := by
        simp only [afterBroadStep, h3, hrel]
        rw [if_pos (by simp [h3, hrel]), hbs]
        cases bids <;> simp
      simp only [searchSimilarChunks, hmc, hsp, hab]

/-- Claim C5 witness: a non-institution-related query with an empty result
set still bypasses the broad search entirely. -/
theorem broad_search_iff_scarce_and_related_witness :
    searchSimilarChunks (fun _ _ => []) [] "zzz" 1
      = searchNoBroad (fun _ _ => []) [] "zzz" 1 :=
  (broad_search_iff_scarce_and_related (fun _ _ => []) [] "zzz" 1 [] rfl).1
    (by decide)

/-- Claim C6 fails on the code: every extracted keyword of the same category
re-appends that category's first three terms, so the appended terms repeat.
For the query "course" the enhanced query is
"course course program degree course program": 5 appended terms drawn from one
category, with "course" and "program" duplicated. -/
theorem enhance_duplicate_terms_counterexample :
    isUniversityRelated "course" = true
    ∧ enhanceQuery "course" = "course course program degree course program"
    ∧ (enhancedTerms "course").take 5 = ["course", "program", "degree", "course", "program"]
    ∧ ¬((enhancedTerms "course").take 5).Nodup := by
  decide

/-- Claim C6 amended: a non-institution-related query is returned unchanged.
An institution-related query is returned unchanged when no term was collected,
and otherwise becomes the original query followed by a space-separated list of
at most 5 terms, each drawn from the first three keywords of some matching
category (one with a keyword occurring in the lowercased query); the appended
terms may contain duplicates (one block of up to three per extracted keyword,
concatenated and truncated to five). -/
theorem enhance_appends_up_to_five_terms (q : String) :
    (isUniversityRelated q = false → enhanceQuery q = q)
    ∧ (isUniversityRelated q = true →
        (enhancedTerms q = [] ∧ enhanceQuery q = q)
        ∨ (enhancedTerms q ≠ []
            ∧ enhanceQuery q = q ++ " " ++ joinSp ((enhancedTerms q).take 5)
            ∧ ((enhancedTerms q).take 5).length ≤ 5
            ∧ ∀ t ∈ (enhancedTerms q).take 5,
                ∃ p ∈ universityKeywords,
                  (∃ w ∈ p.2, pyIn w (pyLower q) = true) ∧ t ∈ p.2.take 3)) := by
  constructor
  · intro h
    simp [enhanceQuery, h]
  · intro h
    rcases eq_or_ne (enhancedTerms q) [] with he | he
    · exact Or.inl ⟨he, by simp [enhanceQuery, h, he]⟩
    · refine Or.inr ⟨he, ?_, List.length_take_le 5 _, ?_⟩
      · simp [enhanceQuery, h, List.isEmpty_iff, he]
      · intro t ht
        exact mem_enhancedTerms_matching q t (List.mem_of_mem_take ht)

/-- Claim C6 amended witness: "weather" is returned unchanged; "course" gets
its (duplicate-carrying) five terms appended. -/
theorem enhance_appends_up_to_five_terms_witness :
    enhanceQuery "weather" = "weather"
    ∧ ((enhancedTerms "course" = [] ∧ enhanceQuery "course" = "course")
        ∨ (enhancedTerms "course" ≠ []
            ∧ enhanceQuery "course"
                = "course" ++ " " ++ joinSp ((enhancedTerms "course").take 5)
            ∧ ((enhancedTerms "course").take 5).length ≤ 5
            ∧ ∀ t ∈ (enhancedTerms "course").take 5,
                ∃ p ∈ universityKeywords,
                  (∃ w ∈ p.2, pyIn w (pyLower "course") = true)
                    ∧ t ∈ p.2.take 3)) :=
  ⟨(enhance_appends_up_to_five_terms "weather").1 (by decide),
   (enhance_appends_up_to_five_terms "course").2 (by decide)⟩

/-- Claim C7: a keyword is extracted for a query exactly when some category
has a keyword occurring as a substring of the lowercased query and the
extracted keyword belongs to that category's entire list; the extracted list
carries no duplicates. -/
theorem extract_whole_category_union (q : String) :
    (∀ kw, kw ∈ extractKeywords q ↔
        ∃ p ∈ universityKeywords,
          (∃ w ∈ p.2, pyIn w (pyLower q) = true) ∧ kw ∈ p.2)
    ∧ (extractKeywords q).Nodup :=
  ⟨fun kw => mem_extractKeywords q kw, nodup_extractKeywords q⟩

/-- Claim C8 is violated by the code: `_smart_chunk_filtering` mutates the
corpus chunk dicts in place, so after a search the manager corpus itself
carries `relevance_score` and `filtering_reason`, and `save_embeddings`
pickles that mutated corpus — the annotations leak into the persisted
Corpus. -/
theorem annotations_leak_into_saved_corpus :
    searchSimilarChunks (fun _ _ => [(mkRat 7 10, 0)]) [pdfChunk] "weather" 5
      = some ([pdfChunkTagged], [pdfChunkTagged])
    ∧ mdLookup pdfChunk.metadata "filtering_reason" = none
    ∧ saveEmbeddings [] "university_combined"
        ((⟨some [pdfChunkTagged], some [()]⟩ : MState Unit))
      = some [("university_combined", [pdfChunkTagged])]
    ∧ mdLookup pdfChunkTagged.metadata "filtering_reason"
      = some (MVal.str "high_relevance") := by
  refine ⟨by decide, by decide, by decide, by decide⟩

/-- Claim C9: combining aborts with `False` and touches neither the files nor
the manager state as soon as any source chunk file is missing; when all
sources exist, the combined corpus is the concatenation of the sources' chunk
lists in source order, it is embedded into an index with exactly one vector
per chunk, and it is persisted whole under `university_combined`. -/
theorem combine_all_or_nothing {V : Type} (embed : String → V)
    (fs : List (String × List Chunk)) (st : MState V) (sources : List String) :
    ((∃ s ∈ sources, fsFind fs s = none) →
        combineEmbeddings embed fs st sources = (false, fs, st))
    ∧ (∀ g : String → List Chunk,
        (∀ s ∈ sources, fsFind fs s = some (g s)) →
        combineEmbeddings embed fs st sources
          = (true, fsSet fs "university_combined" ((sources.map g).flatten),
             ⟨some ((sources.map g).flatten),
              some (((sources.map g).flatten).map (fun c => embed c.text))⟩))
    ∧ (∀ cs : List Chunk,
        (createEmbeddings embed cs).idx = some (cs.map (fun c => embed c.text))
        ∧ (cs.map (fun c => embed c.text)).length = cs.length) := by
  refine ⟨?_, ?_, ?_⟩
  · intro hmiss
    unfold combineEmbeddings
    rw [loadAll_of_missing fs sources hmiss]
  · intro g hall
    unfold combineEmbeddings
    rw [loadAll_of_found fs g sources hall]
    rfl
  · intro cs
    exact ⟨rfl, by simp⟩

/-- Claim C9 witness: combining sources of sizes 1 and 2 yields the corpus of
size 3 in source order with 3 index vectors; a missing source aborts with no
change. -/
theorem combine_all_or_nothing_witness :
    combineEmbeddings (fun _ => (0 : Nat)) [("x", [cA]), ("y", [cB, cC])]
        ⟨none, none⟩ ["x", "z"]
      = (false, [("x", [cA]), ("y", [cB, cC])], ⟨none, none⟩)
    ∧ combineEmbeddings (fun _ => (0 : Nat)) [("x", [cA]), ("y", [cB, cC])]
        ⟨none, none⟩ ["x", "y"]
      = (true,
         fsSet [("x", [cA]), ("y", [cB, cC])] "university_combined" [cA, cB, cC],
         ⟨some [cA, cB, cC], some [0, 0, 0]⟩) := by
  constructor
  · exact (combine_all_or_nothing (fun _ => (0 : Nat)) [("x", [cA]), ("y", [cB, cC])]
      ⟨none, none⟩ ["x", "z"]).1 ⟨"z", by decide, by decide⟩
  · exact (combine_all_or_nothing (fun _ => (0 : Nat)) [("x", [cA]), ("y", [cB, cC])]
      ⟨none, none⟩ ["x", "y"]).2.1
      (fun s => if s = "x" then [cA] else [cB, cC]) (by decide)

/-- Claim C10: for a query that is institution-related solely through the
generic term list (no category keyword occurs in it), `extract_keywords` is
empty, `_broad_search` returns no chunks (and leaves the corpus untouched),
and the filter's keyword disjunct is false for every chunk, so acceptance
requires `score ≥ 0.65` even though accepted chunks are tagged
`university_related`. -/
theorem generic_related_query_strict_threshold (q : String)
    (hrel : isUniversityRelated q = true)
    (hnone : ∀ p ∈ universityKeywords, ∀ w ∈ p.2, pyIn w (pyLower q) = false) :
    extractKeywords q = []
    ∧ (∀ (oracle : String → Nat → List (ℚ × Int)) (store : List Chunk) (k : Nat),
        broadSearch oracle store q k = some (store, []))
    ∧ ∀ (store : List Chunk) (cands : List (Nat × ℚ)),
        (∀ p ∈ cands, p.1 < store.length) →
        ((filterLoop q cands store []).2
            = (cands.filter (fun p => decide (relevanceThreshold ≤ p.2))).map Prod.fst
          ∧ ∀ i ∈ (filterLoop q cands store []).2,
              taggedAs (filterLoop q cands store []).1 i "university_related") := by
  have hex : extractKeywords q = [] := extractKeywords_eq_nil q hnone
  refine ⟨hex, fun oracle store k => broadSearch_of_extract_nil oracle q k hex store, ?_⟩
  intro store cands hvalid
  have hacc : ∀ p ∈ cands, acceptSpec q store p = decide (relevanceThreshold ≤ p.2) := by
    intro p _
    unfold acceptSpec
    rw [if_pos (by simp [hrel]), hex]
    simp only [List.any_nil, Bool.false_or]
    by_cases h : relevanceThreshold ≤ p.2
    · have hd : dynamicThreshold ≤ p.2 :=
        le_trans (by decide : dynamicThreshold ≤ relevanceThreshold) h
      simp [h, hd]
    · simp [h]
  constructor
  · rw [show (filterLoop q cands store []).2
        = (cands.filter (acceptSpec q store)).map Prod.fst from by
          simpa using filterLoop_snd q store cands store [] (fun _ => rfl)]
    exact congrArg (List.map Prod.fst) (List.filter_congr hacc)
  · have ht := filterLoop_tags q cands store [] hvalid (by simp)
    have hreason : reasonOf q = "university_related" := by simp [reasonOf, hrel]
    rw [← hreason]
    exact ht

/-- Claim C10 witness: "professor" is institution-related only via the generic
term list; its keyword extraction is empty, a broad search returns nothing,
and a 0.5-scoring candidate is filtered out by the 0.65 bar. -/
theorem generic_related_query_strict_threshold_witness :
    extractKeywords "professor" = []
    ∧ broadSearch (fun _ _ => []) [pdfChunk] "professor" 4 = some ([pdfChunk], [])
    ∧ (filterLoop "professor" [(0, mkRat 1 2)] [pdfChunk] []).2
        = (([(0, mkRat 1 2)] : List (Nat × ℚ)).filter
            (fun p => decide (relevanceThreshold ≤ p.2))).map Prod.fst := by
  obtain ⟨h1, h2, h3⟩ :=
    generic_related_query_strict_threshold "professor" (by decide) (by decide)
  exact ⟨h1, h2 (fun _ _ => []) [pdfChunk] 4, (h3 [pdfChunk] [(0, mkRat 1 2)] (by decide)).1⟩

end BotApp
